import Mathlib

/-!
Shallow embedding of `src/lib/wordpress.ts`, the content-access facade of the
portfolio site: typed records for the WordPress/ACF entities, an explicit
`server` function modelling the HTTP transport consulted by `fetch`, and the
pure formatting helpers, translated clause by clause from the TypeScript source.
-/

/-- `{ rendered: string }` wrapper used by WordPress for title/excerpt/content. -/
structure Rendered where
  rendered : String
deriving DecidableEq

/-- Entry of `_embedded['wp:featuredmedia']`: `{ source_url: string; alt_text: string }`. -/
structure MediaItem where
  source_url : String
  alt_text : String
deriving DecidableEq

/-- Entry of `_embedded['wp:term']`: `{ id: number; name: string; slug: string }`. -/
structure TermItem where
  id : Int
  name : String
  slug : String
deriving DecidableEq

/-- The optional `_embedded` substructure of a `WPPost`; both keys are optional. -/
structure WPEmbedded where
  featuredmedia : Option (List MediaItem)
  terms : Option (List (List TermItem))
deriving DecidableEq

/-- `WPPost` from the source.  The open-ended `acf?: Record<string, unknown>` map is
modelled as an optional string-keyed association list; no code in the module ever
inspects its values. -/
structure WPPost where
  id : Int
  slug : String
  date : String
  title : Rendered
  excerpt : Rendered
  content : Rendered
  _embedded : Option WPEmbedded
  acf : Option (List (String × String))
deriving DecidableEq

/-- `WPCategory` from the source. -/
structure WPCategory where
  id : Int
  name : String
  slug : String
  count : Nat
deriving DecidableEq

/-- ACF record of a `Project`. -/
structure ProjectACF where
  project_url : String
  github_url : String
  description : String
  technologies : String
  featured_image : String
  year : String
  category : String
deriving DecidableEq

/-- `Project` from the source. -/
structure Project where
  id : Int
  title : Rendered
  acf : ProjectACF
deriving DecidableEq

/-- ACF record of a `Skill`.  The declared TS type of `category` is `string`, but
`groupSkillsByCategory` guards the field with `?? 'Otros'`, i.e. at run time the
raw JSON value may be absent; the guard is only representable when the field is
modelled as optional. -/
structure SkillACF where
  level : Int
  category : Option String
  icon : String
deriving DecidableEq

/-- `Skill` from the source. -/
structure Skill where
  id : Int
  title : Rendered
  acf : SkillACF
deriving DecidableEq

/-- ACF record of an `Experience`. -/
structure ExperienceACF where
  company : String
  position : String
  start_date : String
  end_date : String
  description : String
  technologies : String
  company_url : String
deriving DecidableEq

/-- `Experience` from the source. -/
structure Experience where
  id : Int
  title : Rendered
  acf : ExperienceACF
deriving DecidableEq

/-- A request issued by `wpFetch`: the endpoint appended to the base URL and the
query parameters set on the URL, in insertion order. -/
structure WPRequest where
  endpoint : String
  params : List (String × String)
deriving DecidableEq

/-- The transport's answer to one request: HTTP status plus decoded JSON body.
`Response.ok` of the platform `fetch` is `200 ≤ status < 300`, see `statusOk`. -/
structure HttpResponse (α : Type) where
  status : Nat
  body : α
deriving DecidableEq

/-- `Response.ok` of the WHATWG fetch API: status in the inclusive range 200–299. -/
def statusOk (status : Nat) : Bool := 200 ≤ status && status < 300

/-- The error thrown on line 87: `new Error(\x60WP API Error ${res.status}: ${endpoint}\x60)`.
Modelled structurally as the two data the message interpolates. -/
structure WPApiError where
  status : Nat
  endpoint : String
deriving DecidableEq

/-- `wpFetch` (lines 79–89): build the request, consult the transport, throw on a
non-ok status, otherwise return the decoded body. -/
def wpFetch {α : Type} (server : WPRequest → HttpResponse α)
    (endpoint : String) (params : List (String × String)) : Except WPApiError α :=
  let res := server ⟨endpoint, params⟩
  if statusOk res.status then Except.ok res.body else Except.error ⟨res.status, endpoint⟩

/-- `getPosts(perPage = 10, page = 1)` (lines 100–106). -/
def getPosts (server : WPRequest → HttpResponse (List WPPost))
    (perPage : Nat := 10) (page : Nat := 1) : Except WPApiError (List WPPost) :=
  wpFetch server "/wp/v2/posts"
    [("per_page", toString perPage), ("page", toString page), ("_embed", "1")]

/-- `getPostBySlug(slug)` (lines 111–117): filtered fetch, then `posts[0] ?? null`. -/
def getPostBySlug (server : WPRequest → HttpResponse (List WPPost))
    (slug : String) : Except WPApiError (Option WPPost) :=
  match wpFetch server "/wp/v2/posts" [("slug", slug), ("_embed", "1")] with
  | Except.error e => Except.error e
  | Except.ok posts => Except.ok posts.head?

/-- `getLatestPosts(count = 3)` (lines 122–124): `return getPosts(count, 1)`. -/
def getLatestPosts (server : WPRequest → HttpResponse (List WPPost))
    (count : Nat := 3) : Except WPApiError (List WPPost) :=
  getPosts server count 1

/-- `getCategories()` (lines 129–131). -/
def getCategories (server : WPRequest → HttpResponse (List WPCategory)) :
    Except WPApiError (List WPCategory) :=
  wpFetch server "/wp/v2/categories" [("hide_empty", "true")]

/-- `getProjects()` (lines 141–147). -/
def getProjects (server : WPRequest → HttpResponse (List Project)) :
    Except WPApiError (List Project) :=
  wpFetch server "/wp/v2/portfolio"
    [("per_page", "100"), ("_fields", "id,title,acf"), ("acf_format", "standard")]

/-- `getSkills()` (lines 157–162). -/
def getSkills (server : WPRequest → HttpResponse (List Skill)) :
    Except WPApiError (List Skill) :=
  wpFetch server "/wp/v2/skill" [("per_page", "100"), ("_fields", "id,title,acf")]

/-- `getExperiences()` (lines 183–191). -/
def getExperiences (server : WPRequest → HttpResponse (List Experience)) :
    Except WPApiError (List Experience) :=
  wpFetch server "/wp/v2/experience"
    [("per_page", "100"), ("_fields", "id,title,acf"), ("orderby", "date"), ("order", "desc")]

/-- The single request §4.1 of the spec says `fetchExperiences` issues: up to 100
records, field-limited to id/title/acf, ordered by publish date descending. -/
def experienceRequestSpec : WPRequest :=
  ⟨"/wp/v2/experience",
    [("per_page", "100"), ("_fields", "id,title,acf"), ("orderby", "date"), ("order", "desc")]⟩

/-- `skill.acf.category ?? 'Otros'` (line 169). -/
def catOf (s : Skill) : String := s.acf.category.getD "Otros"

/-- One step of the `reduce` body (line 170): `(acc[cat] ??= []).push(skill)` on an
insertion-ordered string-keyed object — append to the existing group, or create a
new group at the end.  (JS objects order non-integer-index keys, which the category
labels are, by insertion.) -/
def pushToGroup : List (String × List Skill) → String → Skill → List (String × List Skill)
  | [], cat, s => [(cat, [s])]
  | (k, v) :: rest, cat, s =>
    if k = cat then (k, v ++ [s]) :: rest
    else (k, v) :: pushToGroup rest cat s

/-- `groupSkillsByCategory` (lines 167–173). -/
def groupSkillsByCategory (skills : List Skill) : List (String × List Skill) :=
  skills.foldl (fun acc skill => pushToGroup acc (catOf skill) skill) []

/-- Invariant tying a partially built accumulator of the `reduce` on line 168 to the
prefix `proc` of the input already consumed. -/
def GroupInv (acc : List (String × List Skill)) (proc : List Skill) : Prop :=
  (acc.map Prod.fst).Nodup ∧
  (∀ p ∈ acc, p.2 = proc.filter (fun s => catOf s = p.1)) ∧
  (∀ c, c ∉ acc.map Prod.fst → proc.filter (fun s => catOf s = c) = [])

/-- Code points removed by JS `String.prototype.trim` (ECMA-262 TrimString:
WhiteSpace ∪ LineTerminator). -/
def isJsWs (c : Char) : Bool :=
  c.toNat = 0x9 || c.toNat = 0xA || c.toNat = 0xB || c.toNat = 0xC || c.toNat = 0xD ||
  c.toNat = 0x20 || c.toNat = 0xA0 || c.toNat = 0x1680 ||
  (0x2000 ≤ c.toNat && c.toNat ≤ 0x200A) ||
  c.toNat = 0x2028 || c.toNat = 0x2029 || c.toNat = 0x202F || c.toNat = 0x205F ||
  c.toNat = 0x3000 || c.toNat = 0xFEFF

/-- JS `.trim()` on a character list: drop the whitespace run at the front and at
the back. -/
def jsTrim (l : List Char) : List Char :=
  ((l.dropWhile isJsWs).reverse.dropWhile isJsWs).reverse

/-- JS `.trim()` on a string. -/
def jsTrimStr (s : String) : String := String.mk (jsTrim s.data)

/-- JS `String.prototype.split` with a single-character separator: `"".split(sep)`
is `[""]`, adjacent separators yield empty fields. -/
def splitOnChar (sep : Char) : List Char → List (List Char)
  | [] => [[]]
  | c :: rest =>
    match splitOnChar sep rest with
    | [] => [[c]]
    | h :: t => if c = sep then [] :: h :: t else (c :: h) :: t

/-- JS `String.prototype.toLowerCase` restricted to the ASCII range its inputs here
use ("Presente" etc.). -/
def jsCharToLower (c : Char) : Char :=
  if 'A' ≤ c ∧ c ≤ 'Z' then Char.ofNat (c.toNat + 32) else c

/-- JS `.toLowerCase()` on a string. -/
def jsToLowerCase (s : String) : String := String.mk (s.data.map jsCharToLower)

/-- Value of an ASCII decimal digit. -/
def jsDigit? (c : Char) : Option Nat :=
  if '0' ≤ c ∧ c ≤ '9' then some (c.toNat - 48) else none

/-- Unsigned decimal numeral; `none` when empty or holding a non-digit. -/
def parseDecDigits : List Char → Option Nat
  | [] => none
  | l => l.foldl (fun acc c => acc.bind (fun n => (jsDigit? c).map (fun d => n * 10 + d))) (some 0)

/-- JS `Number(string)` on the inputs `formatDate` feeds it: `none` is NaN; the
empty / all-whitespace string converts to 0; otherwise an optionally signed decimal
integer numeral (the relevant fragment of the ECMA-262 StringToNumber grammar —
"YYYY" and "MM" pieces). -/
def jsNumber (s : String) : Option Int :=
  match jsTrim s.data with
  | [] => some 0
  | '-' :: ds => (parseDecDigits ds).map (fun n => -(n : Int))
  | '+' :: ds => (parseDecDigits ds).map (fun n => (n : Int))
  | ds => (parseDecDigits ds).map (fun n => (n : Int))

/-- CLDR es-ES abbreviated month names, indexed by JS month index 0–11. -/
def esShortMonths : List String :=
  ["ene", "feb", "mar", "abr", "may", "jun", "jul", "ago", "sep", "oct", "nov", "dic"]

/-- `new Date(year, monthIndex).toLocaleDateString('es-ES', { year: 'numeric',
month: 'short' })` (lines 202–203): the Date constructor maps years 0–99 to
1900–1999 and normalizes an out-of-range month index by carrying into the year;
the es-ES short rendering is "MMM YYYY" over `esShortMonths`. -/
def jsLocaleDateEsShort (year monthIndex : Int) : String :=
  let y0 : Int := if 0 ≤ year ∧ year ≤ 99 then year + 1900 else year
  let y : Int := y0 + Int.ediv monthIndex 12
  let m : Nat := (Int.emod monthIndex 12).toNat
  (esShortMonths.getD m "") ++ " " ++ toString y

/-- `formatDate` (lines 198–204).  `!dateStr` on a string is the emptiness test;
`const [year, month] = dateStr.split('-')` leaves `month` undefined when no dash is
present, and `Number(undefined)` is NaN, so a malformed argument renders as JS
"Invalid Date". -/
def formatDate (dateStr : String) : String :=
  if dateStr = "" then ""
  else if jsToLowerCase dateStr = "presente" then "Presente"
  else
    match (splitOnChar '-' dateStr.data).map String.mk with
    | y :: m :: _ =>
      match jsNumber y, jsNumber m with
      | some yy, some mm => jsLocaleDateEsShort yy (mm - 1)
      | _, _ => "Invalid Date"
    | _ => "Invalid Date"

/-- `getFeaturedImage` (lines 207–209): the optional chain
`post._embedded?.['wp:featuredmedia']?.[0]?.source_url ?? ''`. -/
def getFeaturedImage (post : WPPost) : String :=
  match post._embedded with
  | none => ""
  | some emb =>
    match emb.featuredmedia with
    | none => ""
    | some media =>
      match media with
      | [] => ""
      | m :: _ => m.source_url

/-- Whether the rest of the input still holds a `>`: exactly when the regex
`<[^>]*>` can close a match started at the current `<`. -/
def hasGt (l : List Char) : Bool := l.any (fun c => c = '>')

/-- Input remaining after the regex match started at a `<` consumes greedily up to
and including the first `>`. -/
def dropThroughGt : List Char → List Char
  | [] => []
  | c :: rest => if c = '>' then rest else dropThroughGt rest

/-- One right-to-left pass computing simultaneously, for each suffix `l` of the
input: `.1` the result of `replace(/<[^>]*>/g, '')` on `l`, `.2.1` that result on
`dropThroughGt l`, and `.2.2` `hasGt l`.  The recurrence of `.1` is the left-to-right
semantics of the global regex replace: at a `<` with a later `>` the match eats
through the first `>`, otherwise the character is kept and scanning resumes after
it; carrying `.2.1` and `.2.2` makes the recursion structural
(`stripTags_cons` below proves the intended recurrence). -/
def stripTagsAux : List Char → List Char × List Char × Bool
  | [] => ([], [], false)
  | c :: rest =>
    let r := stripTagsAux rest
    (if c = '<' && r.2.2 then r.2.1 else c :: r.1,
     if c = '>' then r.1 else r.2.1,
     c = '>' || r.2.2)

/-- `html.replace(/<[^>]*>/g, '')` on a character list. -/
def stripTags (l : List Char) : List Char := (stripTagsAux l).1

/-- `stripHtml` (lines 212–214): global tag removal, then `.trim()`. -/
def stripHtml (html : String) : String := String.mk (jsTrim (stripTags html.data))

/-- `parseTechs` (lines 217–219): `techString?.split(',').map(t => t.trim())
.filter(Boolean) ?? []`.  The declared parameter type is `string`, but the optional
chain `?.` and the `?? []` fallback handle a nullish argument, so the argument is
modelled as optional; `filter(Boolean)` on strings drops exactly `""`. -/
def parseTechs (techString : Option String) : List String :=
  match techString with
  | none => []
  | some s =>
    (((splitOnChar ',' s.data).map (fun cs => jsTrimStr (String.mk cs)))).filter
      (fun t => t ≠ "")

/-- Demo transport that answers every request with HTTP 404 and an empty body. -/
def demoServer404 : WPRequest → HttpResponse (List WPPost) := fun _ => ⟨404, []⟩

/-- A concrete post used by the witnesses. -/
def demoPost : WPPost :=
  { id := 7, slug := "hola-mundo", date := "2024-01-02T00:00:00",
    title := ⟨"Hola"⟩, excerpt := ⟨"<p>Hola</p>"⟩, content := ⟨"<p>Mundo</p>"⟩,
    _embedded := some ⟨some [⟨"https://example.com/img.png", "alt"⟩], none⟩,
    acf := none }

/-- Demo transport answering every request with HTTP 200 and body `[demoPost]`. -/
def demoServerOne : WPRequest → HttpResponse (List WPPost) := fun _ => ⟨200, [demoPost]⟩

/-- A concrete experience record used by the witnesses. -/
def demoExperience : Experience :=
  { id := 3, title := ⟨"Dev"⟩,
    acf := ⟨"ACME", "Dev", "2022-01", "presente", "d", "React", "https://acme.test"⟩ }

/-- Demo transport answering every request with HTTP 200 and body `[demoExperience]`. -/
def demoServerExp : WPRequest → HttpResponse (List Experience) := fun _ => ⟨200, [demoExperience]⟩

/-- Concrete skills used by the witnesses: two categories plus one uncategorized. -/
def demoSkills : List Skill :=
  [⟨1, ⟨"TS"⟩, ⟨90, some "Frontend", "ts"⟩⟩,
   ⟨2, ⟨"Node"⟩, ⟨80, some "Backend", "node"⟩⟩,
   ⟨3, ⟨"Git"⟩, ⟨70, none, "git"⟩⟩,
   ⟨4, ⟨"CSS"⟩, ⟨85, some "Frontend", "css"⟩⟩]

/-! ## Theorems -/

/-- C2: a non-success status makes `wpFetch` fail with the one error kind carrying
that status and the requested endpoint; a success status returns the decoded body;
in particular a simulated 404 on `/wp/v2/posts` makes `getPosts()` fail with
status 404 and that path. -/
theorem wpFetch_error_semantics {α : Type} (server : WPRequest → HttpResponse α)
    (endpoint : String) (ps : List (String × String)) :
    (statusOk (server ⟨endpoint, ps⟩).status = false →
      wpFetch server endpoint ps = Except.error ⟨(server ⟨endpoint, ps⟩).status, endpoint⟩)
  ∧ (statusOk (server ⟨endpoint, ps⟩).status = true →
      wpFetch server endpoint ps = Except.ok (server ⟨endpoint, ps⟩).body)
  ∧ (∀ server2 : WPRequest → HttpResponse (List WPPost),
      (server2 ⟨"/wp/v2/posts", [("per_page", "10"), ("page", "1"), ("_embed", "1")]⟩).status
        = 404 →
      getPosts server2 = Except.error ⟨404, "/wp/v2/posts"⟩) := by
  refine ⟨fun h => ?_, fun h => ?_, fun server2 h => ?_⟩
  · simp [wpFetch, h]
  · simp [wpFetch, h]
  · have h' : (server2 ⟨"/wp/v2/posts",
        [("per_page", toString (10 : Nat)), ("page", toString (1 : Nat)),
         ("_embed", "1")]⟩).status = 404 := h
    simp [getPosts, wpFetch, h', statusOk]

/-- Witness for C2: a transport answering 404 everywhere makes `getPosts` fail with
status 404 and the posts endpoint. -/
theorem wpFetch_error_semantics_witness :
    getPosts demoServer404 = Except.error ⟨404, "/wp/v2/posts"⟩ :=
  (wpFetch_error_semantics demoServer404 "/wp/v2/posts" []).2.2 demoServer404 rfl

/-- C3: when the filtered fetch answers with exactly one match, `getPostBySlug`
returns that post; when it answers with no match, it returns `none`, not an error. -/
theorem getPostBySlug_single_or_none (server : WPRequest → HttpResponse (List WPPost))
    (slug : String) :
    (∀ st p, statusOk st = true →
      server ⟨"/wp/v2/posts", [("slug", slug), ("_embed", "1")]⟩ = ⟨st, [p]⟩ →
      getPostBySlug server slug = Except.ok (some p))
  ∧ (∀ st, statusOk st = true →
      server ⟨"/wp/v2/posts", [("slug", slug), ("_embed", "1")]⟩ = ⟨st, []⟩ →
      getPostBySlug server slug = Except.ok none) := by
  constructor
  · intro st p hok hresp
    simp [getPostBySlug, wpFetch, hresp, hok]
  · intro st hok hresp
    simp [getPostBySlug, wpFetch, hresp, hok]

/-- Witness for C3: a transport answering 200 with exactly `[demoPost]` makes
`getPostBySlug` return that post. -/
theorem getPostBySlug_single_or_none_witness :
    getPostBySlug demoServerOne "hola-mundo" = Except.ok (some demoPost) :=
  (getPostBySlug_single_or_none demoServerOne "hola-mundo").1 200 demoPost (by decide) rfl

/-- C4: `getLatestPosts(n)` is exactly `getPosts(n, 1)`. -/
theorem getLatestPosts_alias_getPosts (server : WPRequest → HttpResponse (List WPPost))
    (count : Nat) : getLatestPosts server count = getPosts server count 1 := rfl

/-- C5: `parseTechs` splits on commas, trims tokens, drops empty ones, and maps a
nullish or empty input to the empty list. -/
theorem parseTechs_spec_examples :
    parseTechs (some "React, Node ,  ,TypeScript") = ["React", "Node", "TypeScript"]
  ∧ parseTechs none = []
  ∧ parseTechs (some "") = [] := by
  refine ⟨by decide, rfl, by decide⟩

/-- C6: `formatDate` maps the empty string to itself, any casing of "presente" to
the literal "Presente", and "2024-01" to a rendering containing the es-ES short
January and the year 2024. -/
theorem formatDate_spec_examples :
    formatDate "" = ""
  ∧ formatDate "presente" = "Presente"
  ∧ formatDate "Presente" = "Presente"
  ∧ (∃ a b : String, formatDate "2024-01" = a ++ "ene" ++ b)
  ∧ (∃ a b : String, formatDate "2024-01" = a ++ "2024" ++ b) := by
  refine ⟨by decide, by decide, by decide, ⟨"", " 2024", by decide⟩, ⟨"ene ", "", by decide⟩⟩

/-- C7: `getExperiences` consults the transport at exactly the request of the spec
(endpoint `/wp/v2/experience` with `per_page=100`, `_fields=id,title,acf`,
`orderby=date`, `order=desc`), and returns the body of that one response on
success, the status/endpoint error otherwise. -/
theorem getExperiences_request_spec (server server2 : WPRequest → HttpResponse (List Experience)) :
    (server experienceRequestSpec = server2 experienceRequestSpec →
      getExperiences server = getExperiences server2)
  ∧ (statusOk (server experienceRequestSpec).status = true →
      getExperiences server = Except.ok (server experienceRequestSpec).body)
  ∧ (statusOk (server experienceRequestSpec).status = false →
      getExperiences server =
        Except.error ⟨(server experienceRequestSpec).status, "/wp/v2/experience"⟩) := by
  refine ⟨fun h => ?_, fun h => ?_, fun h => ?_⟩
  · simp only [experienceRequestSpec] at h
    simp [getExperiences, wpFetch, h]
  · simp only [experienceRequestSpec] at h ⊢
    simp [getExperiences, wpFetch, h]
  · simp only [experienceRequestSpec] at h ⊢
    simp [getExperiences, wpFetch, h]

/-- Witness for C7: a transport answering 200 with `[demoExperience]` makes
`getExperiences` return that body. -/
theorem getExperiences_request_spec_witness :
    getExperiences demoServerExp = Except.ok [demoExperience] :=
  (getExperiences_request_spec demoServerExp demoServerExp).2.1 (by decide)

/-- C8: `stripHtml` removes the tags of the example and trims, giving
"Hello World". -/
theorem stripHtml_example : stripHtml "<p>Hello <b>World</b></p>" = "Hello World" := by
  decide

/-- C9: `getFeaturedImage` returns the source URL of the first embedded
featured-media entry when one is present, and the empty string whenever the
embedded substructure, the media list, or its first entry is absent. -/
theorem getFeaturedImage_spec (post : WPPost) :
    (∀ emb m rest, post._embedded = some emb → emb.featuredmedia = some (m :: rest) →
      getFeaturedImage post = m.source_url)
  ∧ (post._embedded = none → getFeaturedImage post = "")
  ∧ (∀ emb, post._embedded = some emb → emb.featuredmedia = none →
      getFeaturedImage post = "")
  ∧ (∀ emb, post._embedded = some emb → emb.featuredmedia = some [] →
      getFeaturedImage post = "") := by
  refine ⟨fun emb m rest h1 h2 => ?_, fun h1 => ?_, fun emb h1 h2 => ?_,
    fun emb h1 h2 => ?_⟩
  · simp [getFeaturedImage, h1, h2]
  · simp [getFeaturedImage, h1]
  · simp [getFeaturedImage, h1, h2]
  · simp [getFeaturedImage, h1, h2]

/-- Witness for C9: on `demoPost`, whose embedded media list starts with a concrete
entry, `getFeaturedImage` returns that entry's source URL. -/
theorem getFeaturedImage_spec_witness :
    getFeaturedImage demoPost = "https://example.com/img.png" :=
  (getFeaturedImage_spec demoPost).1 ⟨some [⟨"https://example.com/img.png", "alt"⟩], none⟩
    ⟨"https://example.com/img.png", "alt"⟩ [] rfl rfl

/-- Keys after one `pushToGroup` step: unchanged when the category already has a
group, extended at the end otherwise. -/
theorem pushToGroup_keys (acc : List (String × List Skill)) (c : String) (s : Skill) :
    (pushToGroup acc c s).map Prod.fst =
      if c ∈ acc.map Prod.fst then acc.map Prod.fst else acc.map Prod.fst ++ [c] := by
  induction acc with
  | nil => simp [pushToGroup]
  | cons p rest ih =>
    obtain ⟨k, v⟩ := p
    by_cases hk : k = c
    · subst hk
      simp [pushToGroup]
    · simp only [pushToGroup, if_neg hk, List.map_cons]
      rw [ih]
      by_cases hm : c ∈ rest.map Prod.fst
      · simp [hm, hk]
      · simp [hm, Ne.symm hk]

/-- Where each entry of `pushToGroup acc c s` comes from, assuming the keys of
`acc` are distinct: either an untouched entry of another category, or the group of
`c` — freshly created as `[s]`, or an existing group with `s` appended. -/
theorem pushToGroup_entries (acc : List (String × List Skill)) (c : String) (s : Skill)
    (hnd : (acc.map Prod.fst).Nodup) :
    ∀ q ∈ pushToGroup acc c s,
      (q ∈ acc ∧ q.1 ≠ c) ∨
      (q.1 = c ∧ ((c ∉ acc.map Prod.fst ∧ q.2 = [s]) ∨ ∃ v, (c, v) ∈ acc ∧ q.2 = v ++ [s])) := by
  induction acc with
  | nil =>
    intro q hq
    simp only [pushToGroup, List.mem_singleton] at hq
    subst hq
    exact Or.inr ⟨rfl, Or.inl ⟨by simp, rfl⟩⟩
  | cons p rest ih =>
    obtain ⟨k, v⟩ := p
    simp only [List.map_cons, List.nodup_cons] at hnd
    obtain ⟨hkn, hnd'⟩ := hnd
    intro q hq
    by_cases hk : k = c
    · subst hk
      simp only [pushToGroup, if_pos rfl] at hq
      rcases List.mem_cons.mp hq with hq1 | hq2
      · subst hq1
        exact Or.inr ⟨rfl, Or.inr ⟨v, List.mem_cons_self .., rfl⟩⟩
      · refine Or.inl ⟨List.mem_cons_of_mem _ hq2, fun hqc => ?_⟩
        exact hkn (hqc ▸ List.mem_map_of_mem Prod.fst hq2)
    · simp only [pushToGroup, if_neg hk] at hq
      rcases List.mem_cons.mp hq with hq1 | hq2
      · subst hq1
        exact Or.inl ⟨List.mem_cons_self .., hk⟩
      · rcases ih hnd' q hq2 with ⟨hqm, hqc⟩ | ⟨hqc, hrest⟩
        · exact Or.inl ⟨List.mem_cons_of_mem _ hqm, hqc⟩
        · refine Or.inr ⟨hqc, ?_⟩
          rcases hrest with ⟨hcn, hq2'⟩ | ⟨v', hv', hq2'⟩
          · exact Or.inl ⟨by simp [hcn, Ne.symm hk], hq2'⟩
          · exact Or.inr ⟨v', List.mem_cons_of_mem _ hv', hq2'⟩

/-- One `pushToGroup` step adds the pushed skill to the concatenation of all
groups, up to permutation. -/
theorem pushToGroup_join_perm (acc : List (String × List Skill)) (c : String) (s : Skill) :
    List.Perm (((pushToGroup acc c s).map Prod.snd).flatten)
      (s :: (acc.map Prod.snd).flatten) := by
  induction acc with
  | nil => simp [pushToGroup]
  | cons p rest ih =>
    obtain ⟨k, v⟩ := p
    by_cases hk : k = c
    · subst hk
      simp only [pushToGroup, eq_self_iff_true, if_true, List.map_cons, List.flatten_cons]
      rw [List.append_assoc, List.singleton_append]
      exact List.perm_middle
    · simp only [pushToGroup, if_neg hk, List.map_cons, List.flatten_cons]
      refine (List.Perm.append_left v ih).trans ?_
      exact List.perm_middle

/-- `GroupInv` is preserved by one step of the fold. -/
theorem groupInv_step (acc : List (String × List Skill)) (proc : List Skill) (sk : Skill)
    (h : GroupInv acc proc) :
    GroupInv (pushToGroup acc (catOf sk) sk) (proc ++ [sk]) := by
  obtain ⟨hnd, hent, habs⟩ := h
  refine ⟨?_, ?_, ?_⟩
  · rw [pushToGroup_keys]
    by_cases hm : catOf sk ∈ acc.map Prod.fst
    · simpa [hm] using hnd
    · simp only [if_neg hm]
      simp [List.nodup_append, hnd, hm]
  · intro q hq
    rcases pushToGroup_entries acc (catOf sk) sk hnd q hq with ⟨hqm, hqc⟩ | ⟨hqc, hrest⟩
    · rw [hent q hqm, List.filter_append]
      simp [List.filter_cons, Ne.symm hqc]
    · rcases hrest with ⟨hcn, hq2⟩ | ⟨v, hv, hq2⟩
      · rw [List.filter_append, hqc, habs _ hcn]
        simp [hq2, List.filter_cons]
      · have hv' := hent (catOf sk, v) hv
        rw [List.filter_append, hqc, ← hv']
        simp [hq2, List.filter_cons]
  · intro c hcn
    rw [pushToGroup_keys] at hcn
    have hc1 : c ∉ acc.map Prod.fst := by
      by_cases hm : catOf sk ∈ acc.map Prod.fst
      · rwa [if_pos hm] at hcn
      · rw [if_neg hm] at hcn
        intro hc
        exact hcn (List.mem_append.mpr (Or.inl hc))
    have hc2 : c ≠ catOf sk := by
      intro he
      rw [he] at hcn
      by_cases hm : catOf sk ∈ acc.map Prod.fst
      · rw [if_pos hm] at hcn
        exact hcn hm
      · rw [if_neg hm] at hcn
        exact hcn (List.mem_append.mpr (Or.inr (List.mem_singleton.mpr rfl)))
    rw [List.filter_append, habs c hc1]
    simp [List.filter_cons, Ne.symm hc2]

/-- `GroupInv` carried through the whole fold of `groupSkillsByCategory`. -/
theorem groupInv_fold (l : List Skill) :
    ∀ (acc : List (String × List Skill)) (proc : List Skill), GroupInv acc proc →
      GroupInv (l.foldl (fun a sk => pushToGroup a (catOf sk) sk) acc) (proc ++ l) := by
  induction l with
  | nil =>
    intro acc proc h
    simpa using h
  | cons sk l ih =>
    intro acc proc h
    simp only [List.foldl_cons]
    have h2 := ih (pushToGroup acc (catOf sk) sk) (proc ++ [sk]) (groupInv_step acc proc sk h)
    simpa [List.append_assoc] using h2

/-- The finished grouping satisfies the fold invariant against the full input. -/
theorem groupSkills_inv (skills : List Skill) :
    GroupInv (groupSkillsByCategory skills) skills := by
  have h := groupInv_fold skills [] [] ⟨List.nodup_nil, by simp, by simp⟩
  simpa [groupSkillsByCategory] using h

/-- Concatenating all groups after the fold appends the processed skills, up to
permutation. -/
theorem fold_join_perm (l : List Skill) :
    ∀ acc,
      List.Perm (((l.foldl (fun a sk => pushToGroup a (catOf sk) sk) acc).map Prod.snd).flatten)
        ((acc.map Prod.snd).flatten ++ l) := by
  induction l with
  | nil => intro acc; simp
  | cons sk l ih =>
    intro acc
    simp only [List.foldl_cons]
    refine (ih _).trans ?_
    refine (List.Perm.append_right l (pushToGroup_join_perm acc (catOf sk) sk)).trans ?_
    exact List.perm_middle.symm

/-- C1: `groupSkillsByCategory` partitions its input exhaustively and disjointly —
the concatenation of all group values in label-insertion order is a permutation of
the input, each group for a label is exactly the in-order sublist of input skills
with that label (so relative order within a group is preserved and no skill sits in
two groups), group labels are pairwise distinct, every skill lands in the group of
its label, and a skill without a category label lands in the group "Otros". -/
theorem groupSkillsByCategory_partition (skills : List Skill) :
    List.Perm (((groupSkillsByCategory skills).map Prod.snd).flatten) skills
  ∧ ((groupSkillsByCategory skills).map Prod.fst).Nodup
  ∧ (∀ p ∈ groupSkillsByCategory skills, p.2 = skills.filter (fun s => catOf s = p.1))
  ∧ (∀ s ∈ skills, ∃ p ∈ groupSkillsByCategory skills, p.1 = catOf s ∧ s ∈ p.2)
  ∧ (∀ s ∈ skills, s.acf.category = none →
      ∃ p ∈ groupSkillsByCategory skills, p.1 = "Otros" ∧ s ∈ p.2) := by
  obtain ⟨hnd, hent, habs⟩ := groupSkills_inv skills
  have hperm : List.Perm (((groupSkillsByCategory skills).map Prod.snd).flatten) skills := by
    have h := fold_join_perm skills []
    simpa [groupSkillsByCategory] using h
  have hex : ∀ s ∈ skills, ∃ p ∈ groupSkillsByCategory skills, p.1 = catOf s ∧ s ∈ p.2 := by
    intro s hs
    by_cases hk : catOf s ∈ (groupSkillsByCategory skills).map Prod.fst
    · obtain ⟨p, hp, hp1⟩ := List.mem_map.mp hk
      refine ⟨p, hp, hp1, ?_⟩
      rw [hent p hp]
      exact List.mem_filter.mpr ⟨hs, by simp [hp1]⟩
    · exfalso
      have h0 := habs (catOf s) hk
      have hmem : s ∈ skills.filter (fun x => catOf x = catOf s) :=
        List.mem_filter.mpr ⟨hs, by simp⟩
      simp [h0] at hmem
  refine ⟨hperm, hnd, hent, hex, ?_⟩
  intro s hs hnone
  have h := hex s hs
  simpa [catOf, hnone] using h

/-- Witness for C1: on the concrete `demoSkills`, the concatenation of the computed
groups is a permutation of the input. -/
theorem groupSkillsByCategory_partition_witness :
    List.Perm (((groupSkillsByCategory demoSkills).map Prod.snd).flatten) demoSkills :=
  (groupSkillsByCategory_partition demoSkills).1

/-- The bookkeeping components of `stripTagsAux`: `.2.2` is `hasGt` and `.2.1` is
`stripTags` after dropping through the first `>`. -/
theorem stripTagsAux_snd (l : List Char) :
    (stripTagsAux l).2.2 = hasGt l ∧ (stripTagsAux l).2.1 = stripTags (dropThroughGt l) := by
  induction l with
  | nil => simp [stripTagsAux, hasGt, dropThroughGt, stripTags]
  | cons c rest ih =>
    obtain ⟨ih1, ih2⟩ := ih
    constructor
    · simp [stripTagsAux, hasGt, List.any_cons, ih1]
    · by_cases hc : c = '>'
      · subst hc
        simp [stripTagsAux, dropThroughGt, stripTags]
      · simp [stripTagsAux, dropThroughGt, hc, ih2]

/-- The recurrence of the global replace `/<[^>]*>/g`: at a `<` that a later `>`
can close, the match removes everything through that first `>`; any other
character is kept and scanning resumes after it. -/
theorem stripTags_cons (c : Char) (rest : List Char) :
    stripTags (c :: rest) =
      if c = '<' && hasGt rest then stripTags (dropThroughGt rest)
      else c :: stripTags rest := by
  have h := stripTagsAux_snd rest
  simp only [stripTags, stripTagsAux, h.1, h.2]

/-- `dropThroughGt` only removes characters. -/
theorem dropThroughGt_sublist (l : List Char) : List.Sublist (dropThroughGt l) l := by
  induction l with
  | nil => simp [dropThroughGt]
  | cons c rest ih =>
    by_cases hc : c = '>'
    · subst hc
      simp only [dropThroughGt, if_pos rfl]
      exact List.sublist_cons_self '>' rest
    · simp only [dropThroughGt, if_neg hc]
      exact ih.trans (List.sublist_cons_self c rest)

/-- `dropThroughGt` never lengthens its input. -/
theorem dropThroughGt_length_le (l : List Char) : (dropThroughGt l).length ≤ l.length :=
  (dropThroughGt_sublist l).length_le

/-- `stripTags` only removes characters (stated with an explicit length fuel for
the non-structural recursion of the regex semantics). -/
theorem stripTags_sublist_n : ∀ (n : Nat) (l : List Char), l.length ≤ n →
    List.Sublist (stripTags l) l := by
  intro n
  induction n with
  | zero =>
    intro l hl
    have h0 : l = [] := List.eq_nil_of_length_eq_zero (Nat.le_zero.mp hl)
    subst h0
    simp [stripTags, stripTagsAux]
  | succ m ih =>
    intro l hl
    match l with
    | [] => simp [stripTags, stripTagsAux]
    | c :: rest =>
      rw [stripTags_cons]
      have h1 : rest.length ≤ m := by
        simp only [List.length_cons] at hl
        omega
      by_cases hb : (c = '<' && hasGt rest) = true
      · rw [if_pos hb]
        have h2 : (dropThroughGt rest).length ≤ m :=
          le_trans (dropThroughGt_length_le rest) h1
        exact (ih _ h2).trans ((dropThroughGt_sublist rest).trans (List.sublist_cons_self c rest))
      · rw [if_neg hb]
        exact List.Sublist.cons₂ c (ih rest h1)

/-- `stripTags` only removes characters. -/
theorem stripTags_sublist (l : List Char) : List.Sublist (stripTags l) l :=
  stripTags_sublist_n l.length l (le_refl _)

/-- The output of `stripTags` never has a `<` that is later followed by a `>`
(i.e. `['<', '>']` is not a sublist), so a second pass can find no match. -/
theorem stripTags_noTag_n : ∀ (n : Nat) (l : List Char), l.length ≤ n →
    ¬ List.Sublist ['<', '>'] (stripTags l) := by
  intro n
  induction n with
  | zero =>
    intro l hl
    have h0 : l = [] := List.eq_nil_of_length_eq_zero (Nat.le_zero.mp hl)
    subst h0
    simp [stripTags, stripTagsAux]
  | succ m ih =>
    intro l hl
    match l with
    | [] => simp [stripTags, stripTagsAux]
    | c :: rest =>
      rw [stripTags_cons]
      have h1 : rest.length ≤ m := by
        simp only [List.length_cons] at hl
        omega
      by_cases hb : (c = '<' && hasGt rest) = true
      · rw [if_pos hb]
        exact ih _ (le_trans (dropThroughGt_length_le rest) h1)
      · rw [if_neg hb]
        intro hsub
        cases hsub with
        | cons _ h' => exact ih rest h1 h'
        | cons₂ _ h' =>
          have hmem : '>' ∈ stripTags rest := List.singleton_sublist.mp h'
          have hmem2 : '>' ∈ rest := (stripTags_sublist rest).subset hmem
          have hgt : hasGt rest = true := by
            simp only [hasGt, List.any_eq_true, decide_eq_true_eq]
            exact ⟨'>', hmem2, rfl⟩
          simp [hgt] at hb

/-- The output of `stripTags` admits no further match of the tag regex. -/
theorem stripTags_noTag (l : List Char) : ¬ List.Sublist ['<', '>'] (stripTags l) :=
  stripTags_noTag_n l.length l (le_refl _)

/-- On an input with no `<` later followed by a `>`, the tag regex matches
nowhere and the global replace is the identity. -/
theorem stripTags_of_noTag : ∀ l, ¬ List.Sublist ['<', '>'] l → stripTags l = l := by
  intro l
  induction l with
  | nil =>
    intro h
    simp [stripTags, stripTagsAux]
  | cons c rest ih =>
    intro h
    rw [stripTags_cons]
    have hrest : ¬ List.Sublist ['<', '>'] rest := fun h' => h (h'.cons c)
    have hb : ¬ (c = '<' && hasGt rest) = true := by
      simp only [Bool.and_eq_true, decide_eq_true_eq, not_and]
      intro hc hg
      subst hc
      simp only [hasGt, List.any_eq_true, decide_eq_true_eq] at hg
      obtain ⟨x, hx, hx2⟩ := hg
      subst hx2
      exact h (List.Sublist.cons₂ '<' (List.singleton_sublist.mpr hx))
    rw [if_neg hb, ih hrest]

/-- A sublist of a tag-free character list is tag-free. -/
theorem noTag_of_sublist {l₁ l₂ : List Char} (h : List.Sublist l₁ l₂)
    (h2 : ¬ List.Sublist ['<', '>'] l₂) : ¬ List.Sublist ['<', '>'] l₁ :=
  fun h1 => h2 (h1.trans h)

/-- Dropping a leading run twice is dropping it once. -/
theorem dropWhile_twice {α : Type} (p : α → Bool) (l : List α) :
    List.dropWhile p (List.dropWhile p l) = List.dropWhile p l := by
  induction l with
  | nil => simp
  | cons c rest ih =>
    by_cases hc : p c = true
    · simp [List.dropWhile_cons, hc, ih]
    · simp [List.dropWhile_cons, hc]

/-- If a leading-run drop fixes `y ++ t`, it fixes the left part `y`. -/
theorem dropWhile_fix_of_append {α : Type} {p : α → Bool} :
    ∀ (y t : List α), List.dropWhile p (y ++ t) = y ++ t → List.dropWhile p y = y := by
  intro y t h
  cases y with
  | nil => simp
  | cons c y' =>
    rw [List.cons_append, List.dropWhile_cons] at h
    by_cases hc : p c = true
    · exfalso
      rw [if_pos hc] at h
      have hlen := congrArg List.length h
      have hle : (List.dropWhile p (y' ++ t)).length ≤ (y' ++ t).length :=
        ((List.dropWhile_suffix p).sublist).length_le
      simp only [List.length_cons] at hlen
      omega
    · simp [List.dropWhile_cons, hc]

/-- After `jsTrim`, the front holds no whitespace to drop. -/
theorem jsTrim_dropWhile_fix (l : List Char) :
    List.dropWhile isJsWs (jsTrim l) = jsTrim l := by
  obtain ⟨s, hs⟩ :=
    (List.dropWhile_suffix (l := (List.dropWhile isJsWs l).reverse) isJsWs :
      List.dropWhile isJsWs (List.dropWhile isJsWs l).reverse <:+
        (List.dropWhile isJsWs l).reverse)
  have ha2 : List.dropWhile isJsWs l = jsTrim l ++ s.reverse := by
    have h := congrArg List.reverse hs
    rw [List.reverse_append, List.reverse_reverse] at h
    exact h.symm
  have hfix : List.dropWhile isJsWs (List.dropWhile isJsWs l) = List.dropWhile isJsWs l :=
    dropWhile_twice _ _
  rw [ha2] at hfix
  exact dropWhile_fix_of_append _ _ hfix

/-- After `jsTrim`, the back holds no whitespace to drop. -/
theorem jsTrim_reverse_dropWhile_fix (l : List Char) :
    List.dropWhile isJsWs (jsTrim l).reverse = (jsTrim l).reverse := by
  simp only [jsTrim, List.reverse_reverse]
  exact dropWhile_twice _ _

/-- JS `.trim()` is idempotent. -/
theorem jsTrim_idem (l : List Char) : jsTrim (jsTrim l) = jsTrim l := by
  show ((List.dropWhile isJsWs (jsTrim l)).reverse.dropWhile isJsWs).reverse = jsTrim l
  rw [jsTrim_dropWhile_fix, jsTrim_reverse_dropWhile_fix, List.reverse_reverse]

/-- `jsTrim` only removes characters. -/
theorem jsTrim_sublist (l : List Char) : List.Sublist (jsTrim l) l := by
  have h1 : List.Sublist (List.dropWhile isJsWs l) l := (List.dropWhile_suffix _).sublist
  have h2 : List.Sublist (List.dropWhile isJsWs (List.dropWhile isJsWs l).reverse)
      (List.dropWhile isJsWs l).reverse := (List.dropWhile_suffix _).sublist
  have h3 := h2.reverse
  rw [List.reverse_reverse] at h3
  exact h3.trans h1

/-- C10: `stripHtml` is idempotent — one pass of the global tag-removal plus trim
leaves nothing a second pass would remove. -/
theorem stripHtml_idempotent (s : String) : stripHtml (stripHtml s) = stripHtml s := by
  show String.mk (jsTrim (stripTags (jsTrim (stripTags s.data)))) =
    String.mk (jsTrim (stripTags s.data))
  have hnt : ¬ List.Sublist ['<', '>'] (jsTrim (stripTags s.data)) :=
    noTag_of_sublist (jsTrim_sublist _) (stripTags_noTag _)
  rw [stripTags_of_noTag _ hnt, jsTrim_idem]
